import Mathlib

/-!
Verification of the BostonTheoryEvents event-normalization and merge engine.

The development shallowly embeds the repository's Python sources:

* `src/scrapers/combine.py` — the merge engine (`validate_event`,
  `event_completeness`, `deduplicate_events`, and the filter/dedup/sort
  pipeline of `main`);
* the date, time, and location normalizers of `src/scrapers/harvard.py`,
  `src/scrapers/mit_mlcrypto.py`, `src/scrapers/mit_cis.py`,
  `src/scrapers/northeastern.py`, and `src/scrapers/bu.py`, together with
  the recency filters of those adapters and the Harvard block parser.

Events are Python dicts whose canonical fields are strings; a missing field
and an empty string are both falsy in every test the code performs
(`event.get(field, "")`, `if value`), so an absent field is modelled as `""`.
-/

/-- Canonical event record (the dict shape every adapter emits and
`combine.py` consumes).  A missing field is modelled as `""`, matching the
code's uniform `event.get(field, "")` access and truthiness tests. -/
structure Event where
  title : String := ""
  date : String := ""
  time : String := ""
  speaker : String := ""
  affiliation : String := ""
  location : String := ""
  series : String := ""
  series_url : String := ""
  url : String := ""
  deriving DecidableEq

/-- Identity key used by `deduplicate_events`:
`(event.get("date", ""), event.get("series", ""))`. -/
def eventKey (e : Event) : String × String := (e.date, e.series)

/-- Abbreviation for the identity-key type. -/
abbrev EKey := String × String

/-- `combine.py` `validate_event`: `all(event.get(f) for f in ["title", "date"])`. -/
def validate_event (e : Event) : Bool :=
  e.title != "" && e.date != ""

/-- Whether `pat` is a prefix of `hay` (character lists). -/
def listStarts : List Char → List Char → Bool
  | _, [] => true
  | [], _ :: _ => false
  | c :: cs, d :: ds => c == d && listStarts cs ds

/-- Whether `pat` occurs somewhere inside `hay` (character lists). -/
def listHasSub : List Char → List Char → Bool
  | [], pat => listStarts [] pat
  | c :: cs, pat => listStarts (c :: cs) pat || listHasSub cs pat

/-- Python's `pat in s` substring test. -/
def strContains (s pat : String) : Bool :=
  listHasSub s.toList pat.toList

/-- Python's `s.upper()` (ASCII range, the only one exercised here). -/
def pyUpper (s : String) : String :=
  String.mk (s.toList.map Char.toUpper)

/-- Python's `s.lower()` (ASCII range, the only one exercised here). -/
def pyLower (s : String) : String :=
  String.mk (s.toList.map Char.toLower)

/-- Python's `s.strip()`: remove leading and trailing whitespace. -/
def pyStrip (s : String) : String :=
  String.mk (((s.toList.dropWhile Char.isWhitespace).reverse.dropWhile
    Char.isWhitespace).reverse)

/-- Python's `s.startswith(pat)`. -/
def pyStartsWith (s pat : String) : Bool :=
  listStarts s.toList pat.toList

/-- Accumulator pass of `s.split("\n")`. -/
def splitLinesAux : List Char → List Char → List (List Char)
  | [], acc => [acc.reverse]
  | '\n' :: rest, acc => acc.reverse :: splitLinesAux rest []
  | c :: rest, acc => splitLinesAux rest (c :: acc)

/-- Python's `s.split("\n")` (in particular `"".split("\n") == [""]`). -/
def pySplitLines (s : String) : List String :=
  (splitLinesAux s.toList []).map List.asString

/-- Numeric value of a decimal digit character. -/
def digitVal (c : Char) : Nat := c.toNat - 48

/-- Value of a nonempty all-digit run, `none` on any non-digit. -/
def digitsValAux : List Char → Nat → Option Nat
  | [], acc => some acc
  | c :: cs, acc => if c.isDigit then digitsValAux cs (10 * acc + digitVal c) else none

/-- Python's `int(s)` on decimal literals: optional surrounding whitespace,
optional sign, then a nonempty digit run. -/
def pyInt? (s : String) : Option Int :=
  match ((s.toList.dropWhile Char.isWhitespace).reverse.dropWhile
      Char.isWhitespace).reverse with
  | [] => none
  | '-' :: cs =>
    match cs with
    | [] => none
    | _ :: _ => (digitsValAux cs 0).map (fun n => -(n : Int))
  | '+' :: cs =>
    match cs with
    | [] => none
    | _ :: _ => (digitsValAux cs 0).map (fun n => (n : Int))
  | cs => (digitsValAux cs 0).map (fun n => (n : Int))

/-- The per-field test of `event_completeness`:
`if value and value.upper() != "TBA" and value != "TBD"`.
Note the `"TBA"` comparison is done on the uppercased value while the
`"TBD"` comparison is on the raw value. -/
def fieldPoint (v : String) : Bool :=
  v != "" && pyUpper v != "TBA" && v != "TBD"

/-- The title-bonus test of `event_completeness`:
`if title and title.upper() != "TBA" and "TBD" not in title.upper()`. -/
def titleBonus (t : String) : Bool :=
  t != "" && pyUpper t != "TBA" && !(strContains (pyUpper t) "TBD")

/-- `combine.py` `event_completeness`: one point per completed field over the
fixed field list, plus a two-point bonus for a non-generic title. -/
def event_completeness (e : Event) : Nat :=
  let base := [e.title, e.speaker, e.location, e.time, e.affiliation, e.url].foldl
    (fun s v => if fieldPoint v then s + 1 else s) 0
  if titleBonus e.title then base + 2 else base

/-- One step of the `seen` dict update inside `deduplicate_events`: a fresh
key is appended (Python dicts preserve insertion order), an existing key's
value is replaced in place only when the new event's completeness is
strictly greater. -/
def updateSeen : List (EKey × Event) → Event → List (EKey × Event)
  | [], e => [(eventKey e, e)]
  | (k, v) :: rest, e =>
    if k = eventKey e then
      (k, if event_completeness e > event_completeness v then e else v) :: rest
    else
      (k, v) :: updateSeen rest e

/-- The `seen` dict of `deduplicate_events` after scanning the whole input,
as an insertion-ordered association list. -/
def dedupAssoc (events : List Event) : List (EKey × Event) :=
  events.foldl updateSeen []

/-- `combine.py` `deduplicate_events`: `list(seen.values())`. -/
def deduplicate_events (events : List Event) : List Event :=
  (dedupAssoc events).map Prod.snd

/-- Comparison used by `unique_events.sort(key=lambda e: e.get("date", ""))`. -/
def dateLe (a b : Event) : Bool :=
  decide (a.date ≤ b.date)

/-- The merge pipeline of `combine.py` `main` (lines 127-136): validation
filter, deduplication, then a stable sort by `date`. -/
def mergeEvents (events : List Event) : List Event :=
  (deduplicate_events (events.filter validate_event)).mergeSort dateLe

/-- First value stored under key `k` in an association list (Python dict
lookup, faithful because `updateSeen` keeps keys unique). -/
def lookupK (A : List (EKey × Event)) (k : EKey) : Option Event :=
  (A.find? (fun kv => decide (kv.1 = k))).map Prod.snd

/-- The completeness-maximum reducer over one key group: starting from an
optional current holder, fold the group, replacing only on strictly greater
completeness.  This is the per-key effect of `deduplicate_events`. -/
def optWinner (w : Option Event) (g : List Event) : Option Event :=
  g.foldl
    (fun w e =>
      match w with
      | none => some e
      | some v => some (if event_completeness e > event_completeness v then e else v))
    w

/-- Per-field point test written from the words of the specification claim
for scoring: the placeholder comparison is case-insensitive for both
`"TBA"` and `"TBD"`.  Used only to compare the claim against the code. -/
def claimFieldPoint (v : String) : Bool :=
  v != "" && pyUpper v != "TBA" && pyUpper v != "TBD"

/-- Title-bonus test written from the words of the specification claim. -/
def claimTitleBonus (t : String) : Bool :=
  t != "" && pyUpper t != "TBA" && pyUpper t != "TBD" && !(strContains (pyUpper t) "TBD")

/-- Completeness score as the specification claim states it (case-insensitive
placeholder test on every field).  Used only to compare against
`event_completeness`. -/
def claim_completeness (e : Event) : Nat :=
  ([e.title, e.speaker, e.location, e.time, e.affiliation, e.url].countP claimFieldPoint)
    + (if claimTitleBonus e.title then 2 else 0)

/-- Per-field point test of the amended scoring claim, stated as a plain
predicate: present, not `"TBA"` up to case, and not exactly the
case-sensitive string `"TBD"`. -/
def amendedFieldPoint (v : String) : Bool :=
  decide (v ≠ "" ∧ pyUpper v ≠ "TBA" ∧ v ≠ "TBD")

/-- Title-bonus test of the amended scoring claim, stated as a plain
predicate. -/
def amendedTitleBonus (t : String) : Bool :=
  decide (t ≠ "" ∧ pyUpper t ≠ "TBA" ∧ strContains (pyUpper t) "TBD" = false)

/-- Full month names with their numbers, as matched by `strptime`'s `%B`
directive (matching is case-insensitive; no month name is a prefix of
another, so alternation order is irrelevant). -/
def monthTable : List (String × Nat) :=
  [("january", 1), ("february", 2), ("march", 3), ("april", 4), ("may", 5),
   ("june", 6), ("july", 7), ("august", 8), ("september", 9), ("october", 10),
   ("november", 11), ("december", 12)]

/-- Consume `name` (already lower-case) from the front of `cs`,
case-insensitively; return the remainder on success. -/
def dropNameCI : List Char → List Char → Option (List Char)
  | cs, [] => some cs
  | [], _ :: _ => none
  | c :: cs, d :: ds => if c.toLower = d then dropNameCI cs ds else none

/-- Match one of the table's month names at the front of `cs`. -/
def matchMonthAux : List (String × Nat) → List Char → Option (Nat × List Char)
  | [], _ => none
  | (name, m) :: rest, cs =>
    match dropNameCI cs name.toList with
    | some cs' => some (m, cs')
    | none => matchMonthAux rest cs

/-- `strptime` `%B`: a full month name. -/
def matchMonth (cs : List Char) : Option (Nat × List Char) :=
  matchMonthAux monthTable cs

/-- One or more whitespace characters (a literal blank inside a `strptime`
format string matches a nonempty whitespace run). -/
def skipWs1 (cs : List Char) : Option (List Char) :=
  match cs with
  | c :: rest => if c.isWhitespace then some (rest.dropWhile Char.isWhitespace) else none
  | [] => none

/-- `strptime` `%d`: one or two digits forming a day in 1..31 (the two-digit
branch is preferred; backtracking to one digit can never help in the formats
used here because the following literal is never a digit). -/
def matchDay : List Char → Option (Nat × List Char)
  | a :: b :: rest =>
    if a.isDigit && b.isDigit then
      if (a = '3' && (b = '0' || b = '1')) || (a = '1' || a = '2')
          || (a = '0' && b ≠ '0') then
        some (10 * digitVal a + digitVal b, rest)
      else none
    else if a.isDigit && a ≠ '0' then
      some (digitVal a, b :: rest)
    else none
  | [a] => if a.isDigit && a ≠ '0' then some (digitVal a, []) else none
  | [] => none

/-- `strptime` `%Y`: exactly four digits. -/
def matchYear4 : List Char → Option (Nat × List Char)
  | a :: b :: c :: d :: rest =>
    if a.isDigit && b.isDigit && c.isDigit && d.isDigit then
      some (1000 * digitVal a + 100 * digitVal b + 10 * digitVal c + digitVal d, rest)
    else none
  | _ => none

/-- Gregorian leap-year test (as used by `datetime`). -/
def isLeap (y : Nat) : Bool :=
  y % 4 = 0 && (y % 100 ≠ 0 || y % 400 = 0)

/-- Number of days in a month, for `datetime`'s day-of-month validation. -/
def daysInMonth (y m : Nat) : Nat :=
  if m = 2 then (if isLeap y then 29 else 28)
  else if m = 4 || m = 6 || m = 9 || m = 11 then 30
  else 31

/-- `datetime.strptime(s, "%B %d, %Y")` (with `requireComma = true`) or
`datetime.strptime(s, "%B %d %Y")` (with `requireComma = false`): the whole
string must be consumed, and `datetime` validates the day against the
month's length and requires year ≥ 1. -/
def strptimeMonthDayYear (s : String) (requireComma : Bool) : Option (Nat × Nat × Nat) :=
  match matchMonth s.toList with
  | none => none
  | some (m, cs1) =>
    match skipWs1 cs1 with
    | none => none
    | some cs2 =>
      match matchDay cs2 with
      | none => none
      | some (d, cs3) =>
        let withComma : Option (List Char) :=
          if requireComma then
            match cs3 with
            | ',' :: rest => some rest
            | _ => none
          else some cs3
        match withComma with
        | none => none
        | some cs4 =>
          match skipWs1 cs4 with
          | none => none
          | some cs5 =>
            match matchYear4 cs5 with
            | none => none
            | some (y, cs6) =>
              if cs6 = [] && 1 ≤ y && 1 ≤ d && d ≤ daysInMonth y m then
                some (y, m, d)
              else none

/-- Left-pad a number to two digits (Python's `{:02d}`). -/
def pad2 (n : Nat) : String :=
  if n < 10 then "0" ++ toString n else toString n

/-- Left-pad a year to four digits (`strftime` `%Y`). -/
def pad4 (n : Nat) : String :=
  if n < 10 then "000" ++ toString n
  else if n < 100 then "00" ++ toString n
  else if n < 1000 then "0" ++ toString n
  else toString n

/-- `dt.strftime("%Y-%m-%d")`. -/
def formatISO (y m d : Nat) : String :=
  pad4 y ++ "-" ++ pad2 m ++ "-" ++ pad2 d

/-- `harvard.py` `parse_date`: try `"%B %d, %Y"`, then `"%B %d %Y"`,
returning `""` when both fail.  No ordinal-suffix handling and no
placeholder check. -/
def harvard_parse_date (date_str : String) : String :=
  let s := pyStrip date_str
  match strptimeMonthDayYear s true with
  | some (y, m, d) => formatISO y m d
  | none =>
    match strptimeMonthDayYear s false with
    | some (y, m, d) => formatISO y m d
    | none => ""

/-- The global substitution `re.sub(r"(\d+)(st|nd|rd|th)", r"\1", s)` of
`mit_mlcrypto.py`: delete an ordinal suffix that immediately follows a digit
run.  (A match can only end at the end of a maximal digit run, since the
suffix alternatives never start with a digit.) -/
def stripOrdinals : List Char → List Char
  | [] => []
  | c :: 's' :: 't' :: rest =>
    if c.isDigit then c :: stripOrdinals rest
    else c :: stripOrdinals ('s' :: 't' :: rest)
  | c :: 'n' :: 'd' :: rest =>
    if c.isDigit then c :: stripOrdinals rest
    else c :: stripOrdinals ('n' :: 'd' :: rest)
  | c :: 'r' :: 'd' :: rest =>
    if c.isDigit then c :: stripOrdinals rest
    else c :: stripOrdinals ('r' :: 'd' :: rest)
  | c :: 't' :: 'h' :: rest =>
    if c.isDigit then c :: stripOrdinals rest
    else c :: stripOrdinals ('t' :: 'h' :: rest)
  | c :: cs => c :: stripOrdinals cs

/-- `mit_mlcrypto.py` `parse_date`: reject any string containing `"TBD"`
(case-insensitively), try `"%B %d, %Y"`, then retry after removing ordinal
day suffixes. -/
def mlcrypto_parse_date (date_str : String) : Option String :=
  let s := pyStrip date_str
  if strContains (pyUpper s) "TBD" then none
  else
    match strptimeMonthDayYear s true with
    | some (y, m, d) => some (formatISO y m d)
    | none =>
      match strptimeMonthDayYear (stripOrdinals s.toList).asString true with
      | some (y, m, d) => some (formatISO y m d)
      | none => none

/-- Python's `int(s[:4])` on a date string, as an optional value. -/
def dateYear (s : String) : Option Int :=
  pyInt? ((s.toList.take 4).asString)

/-- The recency filter of `harvard.py` `main`:
`e.get("date") and int(e["date"][:4]) >= current_year - 2`. -/
def harvard_recent (currentYear : Int) (e : Event) : Bool :=
  e.date != "" && (dateYear e.date).elim false (fun y => decide (y ≥ currentYear - 2))

/-- The recency filter of `bu.py` `main` (same two-year window as Harvard). -/
def bu_recent (currentYear : Int) (e : Event) : Bool :=
  e.date != "" && (dateYear e.date).elim false (fun y => decide (y ≥ currentYear - 2))

/-- The per-event recency test of `mit_mlcrypto.py` `scrape_events`:
`year = int(date[:4]); year >= cutoff_year` with
`cutoff_year = current_year - 1`. -/
def mlcrypto_recent (currentYear : Int) (date : String) : Bool :=
  (dateYear date).elim false (fun y => decide (y ≥ currentYear - 1))

/-- The semester-skip test of `mit_cis.py` `scrape_events`: a heading's
events are skipped when `current_semester_year < cutoff_year` with
`cutoff_year = current_year - 1`. -/
def mit_cis_semester_skip (currentYear semesterYear : Int) : Bool :=
  decide (semesterYear < currentYear - 1)

/-- The location rule of `harvard.py` `parse_event_block` (lines 148-151):
strip, then prepend `"Harvard "` unless the lower-cased location already
starts with `"harvard"`. -/
def harvard_resolve_location (raw : String) : String :=
  let location := pyStrip raw
  if location != "" && !(pyStartsWith (pyLower location) "harvard") then
    "Harvard " ++ location
  else location

/-- The location rule of `northeastern.py` `parse_event_row` (lines 142-144):
when the cell text is nonempty, `"Northeastern "` is prepended
unconditionally; an empty cell leaves the field unset. -/
def northeastern_resolve_location (loc : String) : Option String :=
  if loc != "" then some ("Northeastern " ++ loc) else none

/-- The location rule of `bu.py` `parse_event_block` (lines 68-71): prepend
`"BU "` unless the lower-cased location already starts with `"bu "`. -/
def bu_resolve_location (location : String) : String :=
  if location != "" && !(pyStartsWith (pyLower location) "bu ") then
    "BU " ++ location
  else location

/-- Try the two-digit-hour alternative of `(\d{1,2}):(\d{2})` at the current
position; on failure fall back to the one-digit-hour alternative.  (Both the
hour and `match.group(2)`, the raw minute text, are returned.) -/
def tryTimeAt (cs : List Char) : Option (Nat × String) :=
  match cs with
  | a :: b :: ':' :: m1 :: m2 :: _ =>
    if a.isDigit && b.isDigit && m1.isDigit && m2.isDigit then
      some (10 * digitVal a + digitVal b, String.mk [m1, m2])
    else
      match cs with
      | x :: ':' :: n1 :: n2 :: _ =>
        if x.isDigit && n1.isDigit && n2.isDigit then
          some (digitVal x, String.mk [n1, n2])
        else none
      | _ => none
  | x :: ':' :: n1 :: n2 :: _ =>
    if x.isDigit && n1.isDigit && n2.isDigit then
      some (digitVal x, String.mk [n1, n2])
    else none
  | _ => none

/-- `re.search(r"(\d{1,2}):(\d{2})", t)`: leftmost match wins. -/
def findTime : List Char → Option (Nat × String)
  | [] => none
  | c :: cs =>
    match tryTimeAt (c :: cs) with
    | some r => some r
    | none => findTime cs

/-- `harvard.py` `parse_time`: extract the first `H:MM` or `HH:MM`, then
shift by the am/pm markers found anywhere in the lowered string. -/
def harvard_parse_time (time_str : String) : String :=
  let t := pyLower (pyStrip time_str)
  match findTime t.toList with
  | some (h, minute) =>
    let hour :=
      if strContains t "p.m" || strContains t "pm" then
        (if h ≠ 12 then h + 12 else h)
      else if strContains t "a.m" || strContains t "am" then
        (if h = 12 then 0 else h)
      else h
    pad2 hour ++ ":" ++ minute
  | none => ""

/-- Split at the first colon (`line.split(":", 1)`), when one exists. -/
def splitColonAux : List Char → Option (List Char × List Char)
  | [] => none
  | ':' :: rest => some ([], rest)
  | c :: rest => (splitColonAux rest).map (fun p => (c :: p.1, p.2))

/-- Split a string at its first colon, returning the pieces before and after. -/
def splitFirstColon (s : String) : Option (String × String) :=
  (splitColonAux s.toList).map (fun p => (p.1.asString, p.2.asString))

/-- `re.search(r"\(([^)]+)\)", s)`: leftmost `(` enclosing a nonempty
run without `)`.  Returns the text before the match and the group. -/
def findParen : List Char → Option (List Char × List Char)
  | [] => none
  | '(' :: rest =>
    let content := rest.takeWhile (fun c => c ≠ ')')
    if 0 < content.length && content.length < rest.length then
      some ([], content)
    else
      (findParen rest).map (fun p => ('(' :: p.1, p.2))
  | c :: rest => (findParen rest).map (fun p => (c :: p.1, p.2))

/-- Python's `s.strip(c)` for a single character: remove every leading and
trailing occurrence of `c`. -/
def stripCharEnds (c : Char) (s : String) : String :=
  (((s.toList.dropWhile (fun x => x = c)).reverse.dropWhile (fun x => x = c)).reverse).asString

/-- Series constant of `harvard.py`. -/
def HARVARD_SERIES : String := "Harvard Theory Seminar"

/-- Series URL constant of `harvard.py`. -/
def HARVARD_SERIES_URL : String := "https://toc.seas.harvard.edu/toc-seminar"

/-- One iteration of the line loop in `harvard.py` `parse_event_block`:
strip the line, skip it when empty, otherwise dispatch on the
case-insensitive field-label and update the event dict. -/
def harvard_process_line (ev : Event) (rawLine : String) : Event :=
  let line := pyStrip rawLine
  if line = "" then ev
  else if pyStartsWith (pyLower line) "speaker" then
    match splitFirstColon line with
    | some p =>
      let speaker_info := pyStrip p.2
      match findParen speaker_info.toList with
      | some q => { ev with affiliation := q.2.asString, speaker := pyStrip q.1.asString }
      | none => { ev with speaker := speaker_info }
    | none => ev
  else if pyStartsWith (pyLower line) "title" then
    match splitFirstColon line with
    | some p => { ev with title := stripCharEnds '\'' (stripCharEnds '\"' (pyStrip p.2)) }
    | none => ev
  else if pyStartsWith (pyLower line) "time" then
    match splitFirstColon line with
    | some p => { ev with time := harvard_parse_time p.2 }
    | none => ev
  else if pyStartsWith (pyLower line) "location" then
    match splitFirstColon line with
    | some p => { ev with location := harvard_resolve_location p.2 }
    | none => ev
  else ev

/-- The line loop of `harvard.py` `parse_event_block` before the final
title default: the initial dict holds the series constants and the parsed
date, then every line of the stripped block is processed in order. -/
def harvard_fill_block (text : String) (date_str : String) : Event :=
  let init : Event :=
    { series := HARVARD_SERIES, series_url := HARVARD_SERIES_URL,
      date := harvard_parse_date date_str }
  (pySplitLines (pyStrip text)).foldl harvard_process_line init

/-- `harvard.py` `parse_event_block`: run the line loop, then default the
title to `"TBA"` when no (nonempty) title was found. -/
def harvard_parse_event_block (text : String) (date_str : String) : Event :=
  let ev := harvard_fill_block text date_str
  if ev.title = "" then { ev with title := "TBA" } else ev

/-- Scoring counterexample event: its speaker field is the lower-case
placeholder `"tbd"`. -/
def evTbdSpeaker : Event :=
  { title := "Lattice Walks", speaker := "tbd", date := "2025-10-01",
    series := "MIT CIS Seminar", series_url := "https://cis.csail.mit.edu/" }

/-- Scenario-1 candidate with a placeholder title. -/
def evPlaceholder : Event :=
  { title := "TBA", date := "2025-10-01", series := "X" }

/-- Scenario-1 candidate with full details, same identity key as
`evPlaceholder`. -/
def evDetailed : Event :=
  { title := "Graphs and Games", speaker := "A. Lee", date := "2025-10-01",
    series := "X" }

/-- A candidate with an empty title, rejected by validation. -/
def evNoTitle : Event :=
  { title := "", date := "2025-01-01", series := "S" }

/-- A candidate used to witness the recency-filter characterization. -/
def evRecent : Event :=
  { title := "Sparse Cuts", date := "2024-05-01", series := "BU Theory Seminar" }

/-- Every entry of the updated dict is an old entry or carries the new event. -/
theorem mem_updateSeen {A : List (EKey × Event)} {e : Event} :
    ∀ kv ∈ updateSeen A e, kv ∈ A ∨ kv.2 = e := by
  induction A with
  | nil =>
    intro kv h
    simp only [updateSeen, List.mem_singleton] at h
    exact Or.inr (by rw [h])
  | cons hd tl ih =>
    intro kv h
    obtain ⟨k, v⟩ := hd
    simp only [updateSeen] at h
    by_cases hk : k = eventKey e
    · rw [if_pos hk] at h
      rcases List.mem_cons.mp h with h1 | h1
      · by_cases hs : event_completeness e > event_completeness v
        · rw [if_pos hs] at h1
          exact Or.inr (by rw [h1])
        · rw [if_neg hs] at h1
          exact Or.inl (by rw [h1]; exact List.mem_cons_self _ _)
      · exact Or.inl (List.mem_cons_of_mem _ h1)
    · rw [if_neg hk] at h
      rcases List.mem_cons.mp h with h1 | h1
      · exact Or.inl (by rw [h1]; exact List.mem_cons_self _ _)
      · rcases ih kv h1 with h2 | h2
        · exact Or.inl (List.mem_cons_of_mem _ h2)
        · exact Or.inr h2

/-- Key list of the updated dict: unchanged when the key is present,
extended at the back when it is fresh. -/
theorem map_fst_updateSeen (A : List (EKey × Event)) (e : Event) :
    (updateSeen A e).map Prod.fst =
      if eventKey e ∈ A.map Prod.fst then A.map Prod.fst
      else A.map Prod.fst ++ [eventKey e] := by
  induction A with
  | nil => simp [updateSeen]
  | cons hd tl ih =>
    obtain ⟨k, v⟩ := hd
    by_cases hk : k = eventKey e
    · subst hk
      simp [updateSeen]
    · have hk2 : ¬ eventKey e = k := fun h => hk h.symm
      by_cases hm : eventKey e ∈ tl.map Prod.fst
      · simp [updateSeen, hk, ih, hm, hk2]
      · simp [updateSeen, hk, ih, hm, hk2]

/-- Every stored value's own key equals the key it is stored under. -/
theorem keyFst_updateSeen {A : List (EKey × Event)} {e : Event}
    (h : ∀ kv ∈ A, eventKey kv.2 = kv.1) :
    ∀ kv ∈ updateSeen A e, eventKey kv.2 = kv.1 := by
  induction A with
  | nil =>
    intro kv hkv
    simp only [updateSeen, List.mem_singleton] at hkv
    rw [hkv]
  | cons hd tl ih =>
    intro kv hkv
    obtain ⟨k, v⟩ := hd
    simp only [updateSeen] at hkv
    by_cases hk : k = eventKey e
    · rw [if_pos hk] at hkv
      rcases List.mem_cons.mp hkv with h1 | h1
      · rw [h1]
        by_cases hs : event_completeness e > event_completeness v
        · simp [if_pos hs, hk]
        · simpa [if_neg hs] using h (k, v) (List.mem_cons_self _ _)
      · exact h kv (List.mem_cons_of_mem _ h1)
    · rw [if_neg hk] at hkv
      rcases List.mem_cons.mp hkv with h1 | h1
      · rw [h1]
        exact h (k, v) (List.mem_cons_self _ _)
      · exact ih (fun kv2 h2 => h kv2 (List.mem_cons_of_mem _ h2)) kv h1

/-- Updating with a fresh key appends the new binding. -/
theorem updateSeen_not_mem {A : List (EKey × Event)} {e : Event}
    (h : eventKey e ∉ A.map Prod.fst) :
    updateSeen A e = A ++ [(eventKey e, e)] := by
  induction A with
  | nil => simp [updateSeen]
  | cons hd tl ih =>
    obtain ⟨k, v⟩ := hd
    have hk : ¬ k = eventKey e := by
      intro hh
      exact h (by simp [hh])
    simp only [updateSeen, if_neg hk, List.cons_append, List.cons.injEq, true_and]
    exact ih (fun hm => h (by simp [hm]))

/-- Updating with a present key whose stored score is at least as large
leaves the dict unchanged. -/
theorem updateSeen_no_replace {A : List (EKey × Event)} {e : Event}
    (hmem : ∃ kv ∈ A, kv.1 = eventKey e)
    (hsc : ∀ kv ∈ A, kv.1 = eventKey e →
      ¬ event_completeness e > event_completeness kv.2) :
    updateSeen A e = A := by
  induction A with
  | nil =>
    obtain ⟨kv, hkv, _⟩ := hmem
    cases hkv
  | cons hd tl ih =>
    obtain ⟨k, v⟩ := hd
    by_cases hk : k = eventKey e
    · have hns := hsc (k, v) (List.mem_cons_self _ _) hk
      simp [updateSeen, hk, hns]
    · simp only [updateSeen, if_neg hk, List.cons.injEq, true_and]
      apply ih
      · obtain ⟨kv, hkv, he⟩ := hmem
        rcases List.mem_cons.mp hkv with h1 | h1
        · rw [h1] at he
          exact absurd he hk
        · exact ⟨kv, h1, he⟩
      · intro kv h1 h2
        exact hsc kv (List.mem_cons_of_mem _ h1) h2

/-- The dict update preserves distinctness of keys. -/
theorem nodup_keys_updateSeen {A : List (EKey × Event)} {e : Event}
    (h : (A.map Prod.fst).Nodup) :
    ((updateSeen A e).map Prod.fst).Nodup := by
  rw [map_fst_updateSeen]
  split
  · exact h
  · next hm => simp [List.nodup_append, h, hm]

/-- The dict update only grows the key set. -/
theorem keys_subset_updateSeen {A : List (EKey × Event)} {e : Event} :
    A.map Prod.fst ⊆ (updateSeen A e).map Prod.fst := by
  rw [map_fst_updateSeen]
  split
  · exact fun _ h => h
  · exact fun x h => List.mem_append_left _ h

/-- The new event's key is present after the update. -/
theorem key_mem_updateSeen {A : List (EKey × Event)} {e : Event} :
    eventKey e ∈ (updateSeen A e).map Prod.fst := by
  rw [map_fst_updateSeen]
  split
  · next hm => exact hm
  · exact List.mem_append_right _ (List.mem_singleton.mpr rfl)

/-- Distinct keys are preserved along the whole fold. -/
theorem nodup_keys_foldl (l : List Event) :
    ∀ A : List (EKey × Event), (A.map Prod.fst).Nodup →
      ((l.foldl updateSeen A).map Prod.fst).Nodup := by
  induction l with
  | nil => intro A h; exact h
  | cons e tl ih =>
    intro A h
    exact ih (updateSeen A e) (nodup_keys_updateSeen h)

/-- The stored-value/key agreement is preserved along the whole fold. -/
theorem keyFst_foldl (l : List Event) :
    ∀ A : List (EKey × Event), (∀ kv ∈ A, eventKey kv.2 = kv.1) →
      ∀ kv ∈ l.foldl updateSeen A, eventKey kv.2 = kv.1 := by
  induction l with
  | nil => intro A h; exact h
  | cons e tl ih =>
    intro A h
    exact ih (updateSeen A e) (keyFst_updateSeen h)

/-- Every entry of the final dict is an initial entry or stores an input event. -/
theorem mem_foldl_updateSeen (l : List Event) :
    ∀ A : List (EKey × Event), ∀ kv ∈ l.foldl updateSeen A, kv ∈ A ∨ kv.2 ∈ l := by
  induction l with
  | nil => intro A kv h; exact Or.inl h
  | cons e tl ih =>
    intro A kv h
    rcases ih (updateSeen A e) kv h with h1 | h1
    · rcases mem_updateSeen kv h1 with h2 | h2
      · exact Or.inl h2
      · exact Or.inr (by rw [h2]; exact List.mem_cons_self _ _)
    · exact Or.inr (List.mem_cons_of_mem _ h1)

/-- The key set only grows along the fold. -/
theorem keys_subset_foldl (l : List Event) :
    ∀ A : List (EKey × Event), A.map Prod.fst ⊆ (l.foldl updateSeen A).map Prod.fst := by
  induction l with
  | nil => intro A; exact fun _ h => h
  | cons e tl ih =>
    intro A
    exact fun x h => ih (updateSeen A e) (keys_subset_updateSeen h)

/-- Every processed event's key appears in the final dict. -/
theorem key_mem_foldl (l : List Event) :
    ∀ A : List (EKey × Event), ∀ e ∈ l, eventKey e ∈ (l.foldl updateSeen A).map Prod.fst := by
  induction l with
  | nil => intro A e h; cases h
  | cons e0 tl ih =>
    intro A e h
    rcases List.mem_cons.mp h with h1 | h1
    · rw [h1]
      exact keys_subset_foldl tl (updateSeen A e0) key_mem_updateSeen
    · exact ih (updateSeen A e0) e h1

/-- Folding a block of events with pairwise-distinct keys, all fresh for the
current dict, appends their bindings in order. -/
theorem foldl_updateSeen_fresh (S : List Event) :
    ∀ A : List (EKey × Event), (∀ s ∈ S, eventKey s ∉ A.map Prod.fst) →
      (S.map eventKey).Nodup →
      S.foldl updateSeen A = A ++ S.map (fun s => (eventKey s, s)) := by
  induction S with
  | nil => intro A _ _; simp
  | cons s tl ih =>
    intro A hfresh hnd
    have h1 : updateSeen A s = A ++ [(eventKey s, s)] :=
      updateSeen_not_mem (hfresh s (List.mem_cons_self _ _))
    have hnd2 := List.Nodup.of_cons hnd
    have hs : eventKey s ∉ tl.map eventKey := by
      have := List.nodup_cons.mp hnd
      exact this.1
    rw [List.foldl_cons, h1, ih (A ++ [(eventKey s, s)]) ?fresh hnd2]
    · simp
    case fresh =>
      intro t ht
      rw [List.map_append]
      intro hmem
      rcases List.mem_append.mp hmem with h2 | h2
      · exact hfresh t (List.mem_cons_of_mem _ ht) h2
      · simp only [List.map_cons, List.map_nil, List.mem_singleton] at h2
        exact hs (by rw [← h2]; exact List.mem_map_of_mem eventKey ht)

/-- Folding events whose keys are all present with stored scores at least as
large leaves the dict unchanged. -/
theorem foldl_updateSeen_fixpoint (m : List Event) :
    ∀ A : List (EKey × Event),
      (∀ e ∈ m, ∃ kv ∈ A, kv.1 = eventKey e) →
      (∀ e ∈ m, ∀ kv ∈ A, kv.1 = eventKey e →
        event_completeness e ≤ event_completeness kv.2) →
      m.foldl updateSeen A = A := by
  induction m with
  | nil => intro A _ _; rfl
  | cons e tl ih =>
    intro A hcov hmax
    have h1 : updateSeen A e = A :=
      updateSeen_no_replace (hcov e (List.mem_cons_self _ _))
        (fun kv hkv hk => by
          have := hmax e (List.mem_cons_self _ _) kv hkv hk
          omega)
    rw [List.foldl_cons, h1]
    exact ih A (fun x hx => hcov x (List.mem_cons_of_mem _ hx))
      (fun x hx => hmax x (List.mem_cons_of_mem _ hx))

/-- Effect of one dict update on a lookup: at the updated key, the stored
value becomes the completeness-maximum of the old value and the new event;
other keys are untouched. -/
theorem lookupK_updateSeen (A : List (EKey × Event)) (e : Event) (k : EKey) :
    lookupK (updateSeen A e) k =
      if eventKey e = k then
        match lookupK A k with
        | none => some e
        | some v => some (if event_completeness e > event_completeness v then e else v)
      else lookupK A k := by
  induction A with
  | nil =>
    by_cases hk : eventKey e = k
    · simp [updateSeen, lookupK, hk]
    · simp [updateSeen, lookupK, hk]
  | cons hd tl ih =>
    obtain ⟨k0, v0⟩ := hd
    by_cases h0 : k0 = eventKey e
    · subst h0
      by_cases hk : eventKey e = k
      · subst hk
        simp [updateSeen, lookupK]
      · simp [updateSeen, lookupK, hk]
    · by_cases hk : k0 = k
      · subst hk
        have hne : ¬ eventKey e = k0 := fun h => h0 h.symm
        simp [updateSeen, h0, lookupK, hne]
      · simp only [updateSeen, if_neg h0]
        have l1 : lookupK ((k0, v0) :: updateSeen tl e) k = lookupK (updateSeen tl e) k := by
          simp [lookupK, List.find?_cons, hk]
        have l2 : lookupK ((k0, v0) :: tl) k = lookupK tl k := by
          simp [lookupK, List.find?_cons, hk]
        rw [l1, l2, ih]

/-- Folding a batch of events acts on each key's lookup as the
completeness-maximum reducer over that key's subsequence. -/
theorem lookupK_foldl (l : List Event) :
    ∀ (A : List (EKey × Event)) (k : EKey),
      lookupK (l.foldl updateSeen A) k =
        optWinner (lookupK A k) (l.filter (fun e => decide (eventKey e = k))) := by
  induction l with
  | nil => intro A k; rfl
  | cons e tl ih =>
    intro A k
    rw [List.foldl_cons, ih]
    by_cases hk : eventKey e = k
    · rw [lookupK_updateSeen]
      rw [if_pos hk]
      have hfil : (e :: tl).filter (fun e => decide (eventKey e = k)) =
          e :: tl.filter (fun e => decide (eventKey e = k)) := by
        simp [List.filter_cons, hk]
      rw [hfil]
      cases hA : lookupK A k with
      | none => rfl
      | some v => rfl
    · rw [lookupK_updateSeen]
      rw [if_neg hk]
      have hfil : (e :: tl).filter (fun e => decide (eventKey e = k)) =
          tl.filter (fun e => decide (eventKey e = k)) := by
        simp [List.filter_cons, hk]
      rw [hfil]

/-- With distinct keys and the stored-value/key agreement, filtering the
stored values by a key yields exactly the looked-up value. -/
theorem filter_map_snd_assoc (A : List (EKey × Event)) (k : EKey)
    (hk : ∀ kv ∈ A, eventKey kv.2 = kv.1) (hnd : (A.map Prod.fst).Nodup) :
    (A.map Prod.snd).filter (fun e => decide (eventKey e = k)) =
      match lookupK A k with
      | some v => [v]
      | none => [] := by
  induction A with
  | nil => simp [lookupK]
  | cons hd tl ih =>
    obtain ⟨k0, v0⟩ := hd
    have hv0 : eventKey v0 = k0 := hk (k0, v0) (List.mem_cons_self _ _)
    have hndtl : (tl.map Prod.fst).Nodup := (List.nodup_cons.mp hnd).2
    have hk0 : k0 ∉ tl.map Prod.fst := (List.nodup_cons.mp hnd).1
    by_cases h0 : k0 = k
    · subst h0
      have htl : (tl.map Prod.snd).filter (fun e => decide (eventKey e = k0)) = [] := by
        rw [List.filter_eq_nil_iff]
        intro x hx
        obtain ⟨kv, hkv, rfl⟩ := List.mem_map.mp hx
        have h1 : eventKey kv.2 = kv.1 := hk kv (List.mem_cons_of_mem _ hkv)
        have h2 : kv.1 ≠ k0 := by
          intro hh
          exact hk0 (by rw [← hh]; exact List.mem_map_of_mem Prod.fst hkv)
        simp [h1, h2]
      simp [lookupK, List.find?_cons, hv0, htl]
    · have hne : eventKey v0 ≠ k := by rw [hv0]; exact h0
      have hlk : lookupK ((k0, v0) :: tl) k = lookupK tl k := by
        simp [lookupK, List.find?_cons, h0]
      rw [hlk]
      have := ih (fun kv hkv => hk kv (List.mem_cons_of_mem _ hkv)) hndtl
      simpa [List.filter_cons, hne] using this

/-- With distinct keys, looking up a present entry's key returns its value. -/
theorem lookupK_of_mem {A : List (EKey × Event)}
    (hnd : (A.map Prod.fst).Nodup) {kv : EKey × Event} (h : kv ∈ A) :
    lookupK A kv.1 = some kv.2 := by
  induction A with
  | nil => cases h
  | cons hd tl ih =>
    have hndtl : (tl.map Prod.fst).Nodup := (List.nodup_cons.mp hnd).2
    have hhd : hd.1 ∉ tl.map Prod.fst := (List.nodup_cons.mp hnd).1
    rcases List.mem_cons.mp h with h1 | h1
    · subst h1
      simp [lookupK, List.find?_cons]
    · have hne : hd.1 ≠ kv.1 := by
        intro hh
        exact hhd (by rw [hh]; exact List.mem_map_of_mem Prod.fst h1)
      have : lookupK (hd :: tl) kv.1 = lookupK tl kv.1 := by
        simp [lookupK, List.find?_cons, hne]
      rw [this]
      exact ih hndtl h1

/-- Starting the reducer from `none` on a nonempty group seeds it with the
group's head. -/
theorem optWinner_none_cons (e : Event) (g : List Event) :
    optWinner none (e :: g) = optWinner (some e) g := rfl

/-- The reducer's result exists, comes from the seed or the group, and its
completeness dominates the seed and every group member. -/
theorem optWinner_spec (g : List Event) :
    ∀ v : Event, ∃ w, optWinner (some v) g = some w ∧ (w = v ∨ w ∈ g)
      ∧ event_completeness v ≤ event_completeness w
      ∧ ∀ e ∈ g, event_completeness e ≤ event_completeness w := by
  induction g with
  | nil =>
    intro v
    exact ⟨v, rfl, Or.inl rfl, le_refl _, by intro e he; cases he⟩
  | cons e tl ih =>
    intro v
    obtain ⟨w, hw, hmem, hle, hall⟩ :=
      ih (if event_completeness e > event_completeness v then e else v)
    have hstep : optWinner (some v) (e :: tl) =
        optWinner (some (if event_completeness e > event_completeness v then e else v)) tl := rfl
    have hve : event_completeness v ≤
        event_completeness (if event_completeness e > event_completeness v then e else v) := by
      split
      · omega
      · exact le_refl _
    have hee : event_completeness e ≤
        event_completeness (if event_completeness e > event_completeness v then e else v) := by
      split
      · exact le_refl _
      · omega
    refine ⟨w, by rw [hstep]; exact hw, ?_, le_trans hve hle, ?_⟩
    · rcases hmem with h | h
      · by_cases hc : event_completeness e > event_completeness v
        · rw [if_pos hc] at h
          exact Or.inr (by rw [h]; exact List.mem_cons_self _ _)
        · rw [if_neg hc] at h
          exact Or.inl h
      · exact Or.inr (List.mem_cons_of_mem _ h)
    · intro x hx
      rcases List.mem_cons.mp hx with h | h
      · rw [h]
        exact le_trans hee hle
      · exact hall x h

/-- Every deduplicated event comes from the input list. -/
theorem mem_of_mem_dedup {l : List Event} {e : Event}
    (h : e ∈ deduplicate_events l) : e ∈ l := by
  obtain ⟨kv, hkv, rfl⟩ := List.mem_map.mp h
  rcases mem_foldl_updateSeen l [] kv hkv with h1 | h1
  · cases h1
  · exact h1

/-- The stored values of the final dict carry their own keys as the
association keys, so mapping `eventKey` over the values yields the key list. -/
theorem map_eventKey_dedup (l : List Event) :
    (deduplicate_events l).map eventKey = (dedupAssoc l).map Prod.fst := by
  unfold deduplicate_events
  rw [List.map_map]
  exact List.map_congr_left (fun kv hkv =>
    keyFst_foldl l [] (by intro kv2 h2; cases h2) kv hkv)

/-- The identity keys of the deduplicated list are pairwise distinct. -/
theorem nodup_keys_dedup (l : List Event) :
    ((deduplicate_events l).map eventKey).Nodup := by
  rw [map_eventKey_dedup]
  exact nodup_keys_foldl l [] (by simp)

/-- Every stored value dominates the completeness of every input event
sharing its key. -/
theorem dedup_max (l : List Event) :
    ∀ v ∈ deduplicate_events l, ∀ e ∈ l, eventKey e = eventKey v →
      event_completeness e ≤ event_completeness v := by
  intro v hv e he hk
  obtain ⟨kv, hkv, rfl⟩ := List.mem_map.mp hv
  have hnd : ((dedupAssoc l).map Prod.fst).Nodup := nodup_keys_foldl l [] (by simp)
  have hkey : eventKey kv.2 = kv.1 :=
    keyFst_foldl l [] (by intro kv2 h2; cases h2) kv hkv
  have hlk : lookupK (dedupAssoc l) kv.1 = some kv.2 := lookupK_of_mem hnd hkv
  have hfold : lookupK (dedupAssoc l) kv.1 =
      optWinner none (l.filter (fun x => decide (eventKey x = kv.1))) :=
    lookupK_foldl l [] kv.1
  rw [hlk] at hfold
  cases hg : l.filter (fun x => decide (eventKey x = kv.1)) with
  | nil =>
    rw [hg] at hfold
    cases hfold
  | cons g0 gs =>
    rw [hg, optWinner_none_cons] at hfold
    obtain ⟨w, hw, _, hle0, hall⟩ := optWinner_spec gs g0
    rw [hw] at hfold
    have hwv : kv.2 = w := by injection hfold
    have hemem : e ∈ g0 :: gs := by
      rw [← hg]
      exact List.mem_filter.mpr ⟨he, by simpa [hkey] using hk⟩
    rw [hwv]
    rcases List.mem_cons.mp hemem with h1 | h1
    · rw [h1]
      exact hle0
    · exact hall e h1

/-- Every input event's key appears among the deduplicated keys. -/
theorem key_mem_dedup (l : List Event) :
    ∀ e ∈ l, ∃ s ∈ deduplicate_events l, eventKey s = eventKey e := by
  intro e he
  have := key_mem_foldl l [] e he
  have h2 : eventKey e ∈ (deduplicate_events l).map eventKey := by
    rw [map_eventKey_dedup]
    exact this
  obtain ⟨s, hs, hks⟩ := List.mem_map.mp h2
  exact ⟨s, hs, hks⟩

/-- Absorption: deduplicating a block with distinct keys, followed by
events it covers and dominates, returns the block unchanged. -/
theorem dedup_absorb (S m : List Event)
    (hnd : (S.map eventKey).Nodup)
    (hcov : ∀ e ∈ m, ∃ s ∈ S, eventKey s = eventKey e)
    (hmax : ∀ s ∈ S, ∀ e ∈ m, eventKey e = eventKey s →
      event_completeness e ≤ event_completeness s) :
    deduplicate_events (S ++ m) = S := by
  unfold deduplicate_events dedupAssoc
  rw [List.foldl_append]
  rw [foldl_updateSeen_fresh S [] (by simp) hnd]
  rw [List.nil_append]
  rw [foldl_updateSeen_fixpoint m (S.map fun s => (eventKey s, s)) ?cov ?max]
  · rw [List.map_map]
    have hid : (Prod.snd ∘ fun s : Event => (eventKey s, s)) = id := rfl
    rw [hid, List.map_id]
  case cov =>
    intro e he
    obtain ⟨s, hs, hks⟩ := hcov e he
    exact ⟨(eventKey s, s), List.mem_map_of_mem _ hs, hks⟩
  case max =>
    intro e he kv hkv hk
    obtain ⟨s, hs, rfl⟩ := List.mem_map.mp hkv
    exact hmax s hs e he hk.symm

/-- The merged catalog is a permutation of the deduplicated valid events. -/
theorem mergeEvents_perm (l : List Event) :
    (mergeEvents l).Perm (deduplicate_events (l.filter validate_event)) :=
  List.mergeSort_perm _ _

/-- Every merged event is a valid input event. -/
theorem mem_mergeEvents_valid {l : List Event} {e : Event}
    (h : e ∈ mergeEvents l) : e ∈ l.filter validate_event :=
  mem_of_mem_dedup ((mergeEvents_perm l).mem_iff.mp h)

/-- Every merged event passes validation. -/
theorem mergeEvents_all_valid (l : List Event) :
    ∀ e ∈ mergeEvents l, validate_event e = true := by
  intro e he
  exact (List.mem_filter.mp (mem_mergeEvents_valid he)).2

/-- Re-filtering the merged catalog by validation changes nothing. -/
theorem filter_validate_mergeEvents (l : List Event) :
    (mergeEvents l).filter validate_event = mergeEvents l :=
  List.filter_eq_self.mpr (mergeEvents_all_valid l)

/-- The identity keys of the merged catalog are pairwise distinct. -/
theorem nodup_keys_mergeEvents (l : List Event) :
    ((mergeEvents l).map eventKey).Nodup := by
  have hperm := (mergeEvents_perm l).map eventKey
  exact hperm.nodup_iff.mpr (nodup_keys_dedup (l.filter validate_event))

/-- `dateLe` is transitive. -/
theorem dateLe_trans : ∀ a b c : Event,
    dateLe a b = true → dateLe b c = true → dateLe a c = true := by
  intro a b c h1 h2
  simp only [dateLe, decide_eq_true_eq] at h1 h2 ⊢
  exact le_trans h1 h2

/-- `dateLe` is total. -/
theorem dateLe_total : ∀ a b : Event, (dateLe a b || dateLe b a) = true := by
  intro a b
  simp only [dateLe, Bool.or_eq_true, decide_eq_true_eq]
  exact le_total a.date b.date

/-- The merged catalog is sorted by `dateLe`. -/
theorem mergeEvents_sorted (l : List Event) :
    (mergeEvents l).Pairwise (fun a b => dateLe a b = true) :=
  List.sorted_mergeSort dateLe_trans dateLe_total _

/-- Every merged event dominates the completeness of every valid input
event sharing its key. -/
theorem mergeEvents_max (l : List Event) :
    ∀ s ∈ mergeEvents l, ∀ e ∈ l.filter validate_event,
      eventKey e = eventKey s → event_completeness e ≤ event_completeness s := by
  intro s hs e he hk
  exact dedup_max (l.filter validate_event)
    s ((mergeEvents_perm l).mem_iff.mp hs) e he hk

/-- Every valid input event's key appears in the merged catalog. -/
theorem mergeEvents_coverage (l : List Event) :
    ∀ e ∈ l.filter validate_event, ∃ s ∈ mergeEvents l, eventKey s = eventKey e := by
  intro e he
  obtain ⟨s, hs, hks⟩ := key_mem_dedup (l.filter validate_event) e he
  exact ⟨s, (mergeEvents_perm l).mem_iff.mpr hs, hks⟩

/-- C1: the merge pipeline is idempotent: applying it to the concatenation
of a previous merge's output with the same inputs again yields the identical
catalog, and in particular merging a merge's output alone changes nothing. -/
theorem c1_merge_idempotent (X : List Event) :
    mergeEvents (mergeEvents X ++ X) = mergeEvents X
      ∧ mergeEvents (mergeEvents X) = mergeEvents X := by
  have hfilter : (mergeEvents X ++ X).filter validate_event
      = mergeEvents X ++ X.filter validate_event := by
    rw [List.filter_append, filter_validate_mergeEvents]
  have habsorb : deduplicate_events (mergeEvents X ++ X.filter validate_event)
      = mergeEvents X :=
    dedup_absorb _ _ (nodup_keys_mergeEvents X)
      (fun e he => mergeEvents_coverage X e he)
      (fun s hs e he hk => mergeEvents_max X s hs e he hk)
  have hsorted := mergeEvents_sorted X
  constructor
  · show (deduplicate_events
      ((mergeEvents X ++ X).filter validate_event)).mergeSort dateLe = mergeEvents X
    rw [hfilter, habsorb]
    exact List.mergeSort_of_sorted hsorted
  · show (deduplicate_events
      ((mergeEvents X).filter validate_event)).mergeSort dateLe = mergeEvents X
    rw [filter_validate_mergeEvents]
    have habsorb2 : deduplicate_events (mergeEvents X) = mergeEvents X := by
      have h := dedup_absorb (mergeEvents X) [] (nodup_keys_mergeEvents X)
        (by intro e he; cases he) (by intro s hs e he; cases he)
      rwa [List.append_nil] at h
    rw [habsorb2]
    exact List.mergeSort_of_sorted hsorted

/-- C2: no two records of the merged catalog share the same
(`date`, `series`) pair. -/
theorem c2_keys_unique (l : List Event) :
    (mergeEvents l).Pairwise (fun a b => (a.date, a.series) ≠ (b.date, b.series)) := by
  have h : List.Pairwise (fun a b => a ≠ b) ((mergeEvents l).map eventKey) :=
    nodup_keys_mergeEvents l
  exact List.pairwise_map.mp h

/-- C5: a candidate with empty title or empty date never appears in the
merged catalog, and when no candidate validates the merge still returns the
empty catalog. -/
theorem c5_validation_gate (l : List Event) :
    (∀ e ∈ mergeEvents l, e.title ≠ "" ∧ e.date ≠ "")
      ∧ ((∀ e ∈ l, validate_event e = false) → mergeEvents l = []) := by
  constructor
  · intro e he
    have hv := mergeEvents_all_valid l e he
    simp only [validate_event, Bool.and_eq_true, bne_iff_ne, ne_eq] at hv
    exact ⟨hv.1, hv.2⟩
  · intro h
    have hfil : l.filter validate_event = [] := by
      rw [List.filter_eq_nil_iff]
      intro e he
      simp [h e he]
    show (deduplicate_events (l.filter validate_event)).mergeSort dateLe = []
    rw [hfil]
    have hd : deduplicate_events [] = ([] : List Event) := rfl
    rw [hd, List.mergeSort_nil]

/-- Witness for C5 at a concrete invalid candidate. -/
theorem c5_validation_gate_witness : mergeEvents [evNoTitle] = [] :=
  (c5_validation_gate [evNoTitle]).2
    (fun e he => by rw [List.mem_singleton.mp he]; decide)

/-- C6: the date sequence of the merged catalog is non-decreasing in the
lexicographic string order. -/
theorem c6_sorted_by_date (l : List Event) :
    ((mergeEvents l).map Event.date).Pairwise (fun a b => a ≤ b) := by
  rw [List.pairwise_map]
  exact (mergeEvents_sorted l).imp (fun hab => by
    simpa [dateLe, decide_eq_true_eq] using hab)

/-- C4: when the validated candidates for a key are exactly `A` then `B`,
the merged catalog keeps exactly the strictly-more-complete one (and `A`,
the first seen, on a tie): the higher-scoring candidate is in the catalog
and the lower-scoring one never is, in either input order. -/
theorem c4_completeness_wins (l : List Event) (k : EKey) (A B : Event)
    (hG : (l.filter validate_event).filter (fun e => decide (eventKey e = k)) = [A, B]) :
    ((mergeEvents l).filter (fun e => decide (eventKey e = k)) =
        [if event_completeness B > event_completeness A then B else A])
    ∧ (event_completeness A > event_completeness B →
        A ∈ mergeEvents l ∧ B ∉ mergeEvents l)
    ∧ (event_completeness B > event_completeness A →
        B ∈ mergeEvents l ∧ A ∉ mergeEvents l)
    ∧ (event_completeness A = event_completeness B →
        (if event_completeness B > event_completeness A then B else A) = A) := by
  have hnd : ((dedupAssoc (l.filter validate_event)).map Prod.fst).Nodup :=
    nodup_keys_foldl (l.filter validate_event) [] (by simp)
  have hkf : ∀ kv ∈ dedupAssoc (l.filter validate_event), eventKey kv.2 = kv.1 :=
    keyFst_foldl (l.filter validate_event) [] (by intro kv h; cases h)
  have hlk : lookupK (dedupAssoc (l.filter validate_event)) k =
      optWinner none ((l.filter validate_event).filter (fun e => decide (eventKey e = k))) :=
    lookupK_foldl (l.filter validate_event) [] k
  rw [hG] at hlk
  have hOW : optWinner none [A, B] =
      some (if event_completeness B > event_completeness A then B else A) := rfl
  rw [hOW] at hlk
  have hfilD : (deduplicate_events (l.filter validate_event)).filter
      (fun e => decide (eventKey e = k)) =
      [if event_completeness B > event_completeness A then B else A] := by
    have h := filter_map_snd_assoc (dedupAssoc (l.filter validate_event)) k hkf hnd
    rw [hlk] at h
    exact h
  have hfilS : (mergeEvents l).filter (fun e => decide (eventKey e = k)) =
      [if event_completeness B > event_completeness A then B else A] := by
    have hperm := List.Perm.filter (fun e => decide (eventKey e = k)) (mergeEvents_perm l)
    rw [hfilD] at hperm
    exact List.perm_singleton.mp hperm
  have hBk : eventKey B = k := by
    have hBmem : B ∈ (l.filter validate_event).filter (fun e => decide (eventKey e = k)) := by
      rw [hG]
      exact List.mem_cons_of_mem _ (List.mem_cons_self _ _)
    exact of_decide_eq_true (List.mem_filter.mp hBmem).2
  have hAk : eventKey A = k := by
    have hAmem : A ∈ (l.filter validate_event).filter (fun e => decide (eventKey e = k)) := by
      rw [hG]
      exact List.mem_cons_self _ _
    exact of_decide_eq_true (List.mem_filter.mp hAmem).2
  have hWin : (if event_completeness B > event_completeness A then B else A)
      ∈ mergeEvents l := by
    have h : (if event_completeness B > event_completeness A then B else A)
        ∈ (mergeEvents l).filter (fun e => decide (eventKey e = k)) := by
      rw [hfilS]
      exact List.mem_cons_self _ _
    exact List.mem_of_mem_filter h
  have hNot : ∀ e : Event, eventKey e = k →
      e ≠ (if event_completeness B > event_completeness A then B else A) →
      e ∉ mergeEvents l := by
    intro e hek hne hmem
    have h : e ∈ (mergeEvents l).filter (fun x => decide (eventKey x = k)) :=
      List.mem_filter.mpr ⟨hmem, by simp [hek]⟩
    rw [hfilS] at h
    exact hne (List.mem_singleton.mp h)
  refine ⟨hfilS, ?_, ?_, ?_⟩
  · intro hgt
    have hif : (if event_completeness B > event_completeness A then B else A) = A :=
      if_neg (by omega)
    refine ⟨hif ▸ hWin, hNot B hBk ?_⟩
    rw [hif]
    intro he
    rw [he] at hgt
    omega
  · intro hgt
    have hif : (if event_completeness B > event_completeness A then B else A) = B :=
      if_pos hgt
    refine ⟨hif ▸ hWin, hNot A hAk ?_⟩
    rw [hif]
    intro he
    rw [he] at hgt
    omega
  · intro heq
    exact if_neg (by omega)

/-- Witness for C4 at the specification's Scenario-1 pair: the placeholder
candidate first, the fully-detailed candidate second. -/
theorem c4_completeness_wins_witness :
    ((mergeEvents [evPlaceholder, evDetailed]).filter
        (fun e => decide (eventKey e = ("2025-10-01", "X"))) = [evDetailed])
    ∧ evDetailed ∈ mergeEvents [evPlaceholder, evDetailed]
    ∧ evPlaceholder ∉ mergeEvents [evPlaceholder, evDetailed] := by
  have h := c4_completeness_wins [evPlaceholder, evDetailed] ("2025-10-01", "X")
    evPlaceholder evDetailed (by decide)
  have hgt : event_completeness evDetailed > event_completeness evPlaceholder := by decide
  refine ⟨?_, (h.2.2.1 hgt).1, (h.2.2.1 hgt).2⟩
  have h1 := h.1
  rw [if_pos hgt] at h1
  exact h1

/-- C3 counterexample: on a record whose speaker field is the lower-case
placeholder "tbd", the code's score is 4 while the claimed case-insensitive
scoring yields 3 — the lower-case "tbd" field does earn a point. -/
theorem c3_score_counterexample :
    event_completeness evTbdSpeaker ≠ claim_completeness evTbdSpeaker
    ∧ event_completeness evTbdSpeaker = 4
    ∧ claim_completeness evTbdSpeaker = 3 := by decide

/-- C3 amended: the completeness score counts the fields that are present,
differ from "TBA" case-insensitively, and differ from the literal
case-sensitive string "TBD", plus the two-point non-generic-title bonus. -/
theorem c3_score_amended (e : Event) :
    event_completeness e =
      ([e.title, e.speaker, e.location, e.time, e.affiliation, e.url].countP
        amendedFieldPoint)
      + (if amendedTitleBonus e.title then 2 else 0) := by
  have hfp : fieldPoint = amendedFieldPoint := by
    funext v
    rw [Bool.eq_iff_iff]
    simp [fieldPoint, amendedFieldPoint, Bool.and_eq_true, bne_iff_ne,
      decide_eq_true_eq, and_assoc]
  have hbonus : titleBonus = amendedTitleBonus := by
    funext t
    rw [Bool.eq_iff_iff]
    simp [titleBonus, amendedTitleBonus, Bool.and_eq_true, bne_iff_ne,
      decide_eq_true_eq, and_assoc, Bool.not_eq_true']
  have hcount : ∀ (L : List String) (n : Nat),
      L.foldl (fun s v => if fieldPoint v then s + 1 else s) n
        = n + L.countP fieldPoint := by
    intro L
    induction L with
    | nil => intro n; simp
    | cons v tl ih =>
      intro n
      rw [List.foldl_cons, List.countP_cons]
      by_cases h : fieldPoint v = true
      · rw [if_pos h, ih, if_pos h]
        omega
      · rw [if_neg h, ih, if_neg h]
        omega
  show (if titleBonus e.title then
      ([e.title, e.speaker, e.location, e.time, e.affiliation, e.url].foldl
        (fun s v => if fieldPoint v then s + 1 else s) 0) + 2
    else
      ([e.title, e.speaker, e.location, e.time, e.affiliation, e.url].foldl
        (fun s v => if fieldPoint v then s + 1 else s) 0)) = _
  rw [hcount _ 0, hfp, hbonus]
  by_cases h : amendedTitleBonus e.title = true
  · rw [if_pos h, if_pos h]
    omega
  · rw [if_neg h, if_neg h]
    omega

/-- C7 counterexample: with current year 2025, a candidate dated 2023-03-01
lies inside the claimed two-year window, yet the ML+Crypto adapter's
recency filter rejects it — that adapter's cutoff is one year. -/
theorem c7_recency_counterexample :
    mlcrypto_recent 2025 "2023-03-01" = false ∧ (2023 : Int) ≥ 2025 - 2 := by decide

/-- C7 amended: the Harvard and BU filters keep a candidate exactly when
its date's year is at least the current year minus two, while the
ML+Crypto per-event filter uses a one-year cutoff, and the MIT CIS skip
also uses a one-year cutoff tested on the semester heading's year. -/
theorem c7_recency_amended (cy y : Int) (e : Event)
    (hy : dateYear e.date = some y) (hne : e.date ≠ "") :
    harvard_recent cy e = decide (y ≥ cy - 2)
    ∧ bu_recent cy e = decide (y ≥ cy - 2)
    ∧ mlcrypto_recent cy e.date = decide (y ≥ cy - 1)
    ∧ ∀ sy : Int, mit_cis_semester_skip cy sy = decide (sy < cy - 1) := by
  have hbne : (e.date != "") = true := bne_iff_ne.mpr hne
  refine ⟨?_, ?_, ?_, fun sy => rfl⟩
  · simp [harvard_recent, hy, hbne, Option.elim]
  · simp [bu_recent, hy, hbne, Option.elim]
  · simp [mlcrypto_recent, hy, Option.elim]

/-- Witness for the amended C7 at a concrete candidate and current year. -/
theorem c7_recency_amended_witness :
    harvard_recent 2025 evRecent = true
    ∧ mlcrypto_recent 2025 evRecent.date = true := by
  have h := c7_recency_amended 2025 2024 evRecent (by decide) (by decide)
  constructor
  · rw [h.1]
    decide
  · rw [h.2.2.1]
    decide

/-- C8 counterexample: the Harvard date normalizer does accept the
"Month D, YYYY" surface form, yet on the ordinal-suffixed
"November 18th, 2025" it returns no value instead of "2025-11-18". -/
theorem c8_date_counterexample :
    harvard_parse_date "November 18th, 2025" ≠ "2025-11-18"
    ∧ harvard_parse_date "November 18th, 2025" = ""
    ∧ harvard_parse_date "November 18, 2025" = "2025-11-18" := by decide

/-- C8 amended: the ML+Crypto date normalizer strips ordinal day suffixes
and rejects the TBD placeholder exactly as claimed; the Harvard normalizer
also rejects the placeholder but returns no value on the ordinal-suffixed
form as well. -/
theorem c8_date_amended :
    mlcrypto_parse_date "November 18th, 2025" = some "2025-11-18"
    ∧ mlcrypto_parse_date "TBD, 2025" = none
    ∧ harvard_parse_date "November 18th, 2025" = ""
    ∧ harvard_parse_date "TBD, 2025" = "" := by decide

/-- C9 counterexample: the Northeastern adapter prepends its institution
tag even when the location already starts with it, so a location already
carrying the tag is not left unchanged. -/
theorem c9_location_counterexample :
    pyStartsWith (pyLower "Northeastern ISEC 655") "northeastern" = true
    ∧ northeastern_resolve_location "Northeastern ISEC 655"
        = some "Northeastern Northeastern ISEC 655"
    ∧ northeastern_resolve_location "Northeastern ISEC 655"
        ≠ some "Northeastern ISEC 655" := by decide

/-- C9 amended: the Harvard and BU adapters leave a nonempty stripped
location unchanged exactly when it already starts (case-insensitively)
with "harvard" and "bu " respectively, prefixing it otherwise, while the
Northeastern adapter prepends its tag unconditionally. -/
theorem c9_location_amended (loc : String) (htrim : pyStrip loc = loc)
    (hne : loc ≠ "") :
    (harvard_resolve_location loc = loc ↔ pyStartsWith (pyLower loc) "harvard" = true)
    ∧ (bu_resolve_location loc = loc ↔ pyStartsWith (pyLower loc) "bu " = true)
    ∧ northeastern_resolve_location loc = some ("Northeastern " ++ loc) := by
  have hbne : (loc != "") = true := bne_iff_ne.mpr hne
  refine ⟨?_, ?_, ?_⟩
  · simp only [harvard_resolve_location, htrim]
    cases hs : pyStartsWith (pyLower loc) "harvard" with
    | true =>
      rw [hbne]
      simp
    | false =>
      rw [hbne]
      rw [if_pos (show ((true && !false) = true) from rfl)]
      constructor
      · intro hcontra
        exfalso
        have hlen := congrArg String.length hcontra
        rw [String.length_append] at hlen
        have h8 : ("Harvard " : String).length = 8 := by decide
        rw [h8] at hlen
        omega
      · intro hcontra
        cases hcontra
  · simp only [bu_resolve_location]
    cases hs : pyStartsWith (pyLower loc) "bu " with
    | true =>
      rw [hbne]
      simp
    | false =>
      rw [hbne]
      rw [if_pos (show ((true && !false) = true) from rfl)]
      constructor
      · intro hcontra
        exfalso
        have hlen := congrArg String.length hcontra
        rw [String.length_append] at hlen
        have h3 : ("BU " : String).length = 3 := by decide
        rw [h3] at hlen
        omega
      · intro hcontra
        cases hcontra
  · simp [northeastern_resolve_location, hne]

/-- Witness for the amended C9 at a concrete unprefixed location. -/
theorem c9_location_amended_witness :
    harvard_resolve_location "SEC 2.118" ≠ "SEC 2.118"
    ∧ bu_resolve_location "SEC 2.118" ≠ "SEC 2.118"
    ∧ northeastern_resolve_location "SEC 2.118" = some "Northeastern SEC 2.118" := by
  have h := c9_location_amended "SEC 2.118" (by decide) (by decide)
  refine ⟨?_, ?_, h.2.2⟩
  · intro he
    have := h.1.mp he
    revert this
    decide
  · intro he
    have := h.2.1.mp he
    revert this
    decide

/-- C10: every event returned by the Harvard block parser has a nonempty
title — the title defaults to "TBA" when the line loop found none — so its
merge validation reduces to the presence of a date. -/
theorem c10_harvard_title_default (text date_str : String) :
    (harvard_parse_event_block text date_str).title ≠ ""
    ∧ validate_event (harvard_parse_event_block text date_str)
        = ((harvard_parse_event_block text date_str).date != "")
    ∧ ((harvard_fill_block text date_str).title = "" →
        (harvard_parse_event_block text date_str).title = "TBA") := by
  unfold harvard_parse_event_block
  by_cases h : (harvard_fill_block text date_str).title = ""
  · rw [if_pos h]
    refine ⟨?_, ?_, fun _ => rfl⟩
    · intro hc
      exact absurd (show ("TBA" : String) = "" from hc) (by decide)
    · show ((("TBA" : String) != "")
          && ((harvard_fill_block text date_str).date != ""))
          = ((harvard_fill_block text date_str).date != "")
      rw [show (("TBA" : String) != "") = true from by decide, Bool.true_and]
  · rw [if_neg h]
    refine ⟨h, ?_, fun hc => absurd hc h⟩
    show (((harvard_fill_block text date_str).title != "")
        && ((harvard_fill_block text date_str).date != ""))
        = ((harvard_fill_block text date_str).date != "")
    rw [bne_iff_ne.mpr h, Bool.true_and]

/-- Witness for C10 at a concrete block with no title line. -/
theorem c10_harvard_title_default_witness :
    (harvard_parse_event_block "Speaker: Ada Lovelace (Analytical Engine)"
        "October 3, 2025").title = "TBA" :=
  (c10_harvard_title_default "Speaker: Ada Lovelace (Analytical Engine)"
    "October 3, 2025").2.2 (by decide)
